/-
  Verification of nanshe_workflow/data.py.

  Shallow embedding: N-dimensional arrays are total functions from an index
  list (List Nat) to elements; shapes and chunk shapes are lists of Nat, one
  entry per axis.  Filesystem state is a total function from paths to optional
  entries.  Each definition is translated from the corresponding function of
  nanshe_workflow/data.py (or, for small pure helpers of its external
  libraries kenjutsu / numpy / os.path, from that helper's documented
  behaviour, as noted in the doc comments).
-/
import Mathlib

set_option maxHeartbeats 1000000

namespace NansheData

/-- Ceiling division: the per-axis block count computed by
kenjutsu.blocks.num_blocks(shape, chunks), i.e. the number of chunk-sized
blocks needed to cover an axis of length a with chunks of length b. -/
def ceilDivN (a b : Nat) : Nat := (a + b - 1) / b

/-- Concatenation of a list of arrays along axis k.  Arrays are modelled as
total functions from an index list; each array is paired with its extent along
axis k.  This models dask.array.concatenate(blocks, axis=k): the coordinate
along axis k selects the block containing it and is shifted to that block's
local coordinate. -/
def concatAxis {α : Type} [Inhabited α] (k : Nat) :
    List ((List Nat → α) × Nat) → List Nat → α
  | [], _ => default
  | (arr, e) :: rest, idx =>
    if idx.getD k 0 < e then arr idx
    else concatAxis k rest (idx.set k (idx.getD k 0 - e))

/-- Extent along axis k of block number t: the length, as measured by
kenjutsu.measure.len_slices, of the slice (t*chunk, min((t+1)*chunk, shape))
produced by kenjutsu.blocks.split_blocks for that block. -/
def blockExt (sh ch : List Nat) (k t : Nat) : Nat :=
  min ((t + 1) * ch.getD k 0) (sh.getD k 0) - t * ch.getD k 0

/-- Number of blocks along axis k, per kenjutsu.blocks.num_blocks. -/
def nBlocksAt (sh ch : List Nat) (k : Nat) : Nat :=
  ceilDivN (sh.getD k 0) (ch.getD k 0)

/-- The per-axis block counts n_blocks = kenjutsu.blocks.num_blocks(shape,
chunks). -/
def numBlocksList (sh ch : List Nat) : List Nat :=
  (List.range sh.length).map (nBlocksAt sh ch)

/-- Global index assembled from a grid coordinate j over the leading axes and
a remaining index: axis k < j.length contributes j_k * chunk_k + idx_k, later
axes contribute idx_k unchanged.  This is the address arithmetic of a block
cut by split_blocks: entry l of block j is entry j*chunk+l of the source. -/
def mixIdx : List Nat → List Nat → List Nat → List Nat
  | _, [], idx => idx
  | c :: cs, j :: js, i :: it => (j * c + i) :: mixIdx cs js it
  | [], _ :: _, idx => idx
  | _ :: _, _ :: _, [] => []

/-- One grid cell of the object array filled by dask_load_hdf5: cell j holds
the source values of block j's hyper-rectangle (fh[dn][s] for the slice tuple
s of that block), indexed by block-local coordinates. -/
def loadGrid {α : Type} (ch : List Nat) (src : List Nat → α) :
    List Nat → List Nat → α :=
  fun j l => src (mixIdx ch j l)

/-- The reassembly loop of concat_dask, processing grid axes from the
innermost outwards; nbRev is the reversed list of per-axis block counts still
to be processed.  Each step removes the last remaining grid axis by
concatenating, for every fixed combination j of the leading grid coordinates,
the row of cells along that axis (the dask.array.concatenate call at axis i,
which for arrays of full rank is absolute axis nbRev.length). -/
def assembleRev {α : Type} [Inhabited α] (sh ch : List Nat) :
    List Nat → (List Nat → List Nat → α) → List Nat → α
  | [], grid => grid []
  | m :: nbRev, grid =>
    assembleRev sh ch nbRev (fun j =>
      concatAxis nbRev.length
        ((List.range m).map
          (fun t => (grid (j ++ [t]), blockExt sh ch nbRev.length t))))

/-- concat_dask: reassembles an N-dimensional grid of blocks into one logical
array, concatenating the innermost axis first (the loop
for i in irange(-1, -1 - len(n_blocks), -1) of data.py). -/
def concat_dask {α : Type} [Inhabited α] (sh ch nb : List Nat)
    (grid : List Nat → List Nat → α) : List Nat → α :=
  assembleRev sh ch nb.reverse grid

/-- dask_load_hdf5: builds the object array a with one lazily read block per
grid coordinate (a[i] = fh[dn][s] for each (i, s) of split_blocks) and
reassembles it with concat_dask. -/
def dask_load_hdf5 {α : Type} [Inhabited α] (sh ch : List Nat)
    (src : List Nat → α) : List Nat → α :=
  concat_dask sh ch (numBlocksList sh ch) (loadGrid ch src)

lemma getD_len_le : ∀ (xs : List Nat) (k : Nat), xs.length ≤ k → xs.getD k 0 = 0
  | [], _, _ => rfl
  | _ :: xs, k + 1, h => getD_len_le xs k (by simpa using h)

lemma getD_set_self : ∀ (xs : List Nat) (k v : Nat), k < xs.length →
    (xs.set k v).getD k 0 = v
  | [], _, _, h => absurd h (by simp)
  | _ :: _, 0, _, _ => rfl
  | _ :: xs, k + 1, v, h => getD_set_self xs k v (by simpa using h)

lemma getD_set_ne : ∀ (xs : List Nat) (k j v : Nat), k ≠ j →
    (xs.set k v).getD j 0 = xs.getD j 0
  | [], _, _, _, _ => rfl
  | _ :: _, 0, 0, _, h => absurd rfl h
  | _ :: _, 0, _ + 1, _, _ => rfl
  | _ :: _, _ + 1, 0, _, _ => rfl
  | _ :: xs, k + 1, j + 1, v, h => getD_set_ne xs k j v (fun e => h (by omega))

lemma set_getD_self : ∀ (xs : List Nat) (k : Nat), xs.set k (xs.getD k 0) = xs
  | [], _ => rfl
  | _ :: _, 0 => rfl
  | x :: xs, k + 1 => congrArg (x :: ·) (set_getD_self xs k)

lemma getD_append_left : ∀ (xs ys : List Nat) (k : Nat), k < xs.length →
    (xs ++ ys).getD k 0 = xs.getD k 0
  | [], _, _, h => absurd h (by simp)
  | _ :: _, _, 0, _ => rfl
  | _ :: xs, ys, k + 1, h => getD_append_left xs ys k (by simpa using h)

lemma getD_append_len : ∀ (xs : List Nat) (t : Nat),
    (xs ++ [t]).getD xs.length 0 = t
  | [], _ => rfl
  | _ :: xs, t => getD_append_len xs t

lemma mixIdx_nil (ch idx : List Nat) : mixIdx ch [] idx = idx := by
  cases ch <;> rfl

lemma div_lt_ceilDivN (x a c : Nat) (hc : 0 < c) (hx : x < a) :
    x / c < ceilDivN a c := by
  unfold ceilDivN
  have h1 : x / c * c ≤ x := Nat.div_mul_le_self x c
  have h2 : (x / c + 1) * c ≤ a + c - 1 := by
    have h3 : (x / c + 1) * c = x / c * c + c := Nat.succ_mul (x / c) c
    omega
  have h4 := (Nat.le_div_iff_mul_le hc).mpr h2
  omega

lemma mixIdx_append : ∀ (ch j idx : List Nat) (t l : Nat),
    j.length < ch.length → j.length < idx.length →
    t * ch.getD j.length 0 + l = idx.getD j.length 0 →
    mixIdx ch (j ++ [t]) (idx.set j.length l) = mixIdx ch j idx
  | [], j, idx, t, l, hc, _, _ => absurd hc (by simp)
  | _ :: _, j, [], t, l, _, hi, _ => absurd hi (by simp)
  | c :: cs, [], i :: it, t, l, _, _, hv => by
    simp only [List.nil_append, List.set, mixIdx, mixIdx_nil]
    simp only [List.length_nil, List.getD_cons_zero] at hv
    rw [hv]
  | c :: cs, j0 :: js, i :: it, t, l, hc, hi, hv => by
    simp only [List.cons_append, List.length_cons, List.set, mixIdx]
    refine congrArg _ (mixIdx_append cs js it t l ?_ ?_ ?_)
    · simpa using hc
    · simpa using hi
    · simpa using hv

lemma concatAxis_blocks {α : Type} [Inhabited α] (k c : Nat) (hc : 0 < c) :
    ∀ (t a : Nat) (f : Nat → List Nat → α) (m l : Nat) (idx : List Nat),
      t < m → idx.getD k 0 = t * c + l → t * c + l < a → l < c →
      concatAxis k
          ((List.range m).map (fun s => (f s, min ((s + 1) * c) a - s * c))) idx
        = f t (idx.set k l) := by
  intro t
  induction t with
  | zero =>
    intro a f m l idx htm hidx hlt hl
    obtain ⟨m', rfl⟩ : ∃ m', m = m' + 1 := ⟨m - 1, by omega⟩
    rw [List.range_succ_eq_map, List.map_cons]
    simp only [Nat.zero_mul, Nat.zero_add] at hidx hlt
    have he : idx.getD k 0 < min ((0 + 1) * c) a - 0 * c := by
      simp only [Nat.zero_add, Nat.one_mul, Nat.zero_mul, Nat.sub_zero]
      omega
    rw [concatAxis, if_pos he, ← hidx, set_getD_self]
  | succ t ih =>
    intro a f m l idx htm hidx hlt hl
    obtain ⟨m', rfl⟩ : ∃ m', m = m' + 1 := ⟨m - 1, by omega⟩
    rw [List.range_succ_eq_map, List.map_cons, List.map_map]
    have hsm : (t + 1) * c = t * c + c := Nat.succ_mul t c
    have hca : c ≤ a := by omega
    have he0 : min ((0 + 1) * c) a - 0 * c = c := by
      simp only [Nat.zero_add, Nat.one_mul, Nat.zero_mul, Nat.sub_zero]
      omega
    have hnotlt : ¬ idx.getD k 0 < min ((0 + 1) * c) a - 0 * c := by
      rw [he0]; omega
    rw [concatAxis, if_neg hnotlt, he0]
    have hklen : k < idx.length := by
      by_contra hkl
      have := getD_len_le idx k (by omega)
      omega
    have hmap : ((List.range m').map
          ((fun s => (f s, min ((s + 1) * c) a - s * c)) ∘ Nat.succ))
        = (List.range m').map
          (fun s => ((fun u => f (u + 1)) s, min ((s + 1) * c) (a - c) - s * c)) := by
      refine List.map_congr_left ?_
      intro s _
      simp only [Function.comp, Nat.succ_eq_add_one]
      refine congrArg _ ?_
      have h1 : (s + 1 + 1) * c = s * c + c + c := by ring
      have h2 : (s + 1) * c = s * c + c := Nat.succ_mul s c
      omega
    rw [hmap]
    have hset : (idx.set k (idx.getD k 0 - c)).getD k 0 = t * c + l := by
      rw [getD_set_self idx k _ hklen]; omega
    have := ih (a - c) (fun u => f (u + 1)) m' l (idx.set k (idx.getD k 0 - c))
      (by omega) hset (by omega) hl
    rw [this, List.set_set]

lemma assembleRev_correct {α : Type} [Inhabited α] (sh ch : List Nat)
    (src : List Nat → α)
    (hchlen : ch.length = sh.length)
    (hch : ∀ k, k < sh.length → 0 < ch.getD k 0) :
    ∀ (nbRev : List Nat) (grid : List Nat → List Nat → α),
      nbRev.length ≤ sh.length →
      (∀ i (hi : i < nbRev.length),
        nbRev.get ⟨i, hi⟩ = nBlocksAt sh ch (nbRev.length - 1 - i)) →
      (∀ j idx, j.length = nbRev.length → idx.length = sh.length →
        (∀ k, k < j.length → j.getD k 0 < nBlocksAt sh ch k) →
        (∀ k, k < j.length → idx.getD k 0 < blockExt sh ch k (j.getD k 0)) →
        (∀ k, j.length ≤ k → k < sh.length → idx.getD k 0 < sh.getD k 0) →
        grid j idx = src (mixIdx ch j idx)) →
      ∀ idx, idx.length = sh.length →
        (∀ k, k < sh.length → idx.getD k 0 < sh.getD k 0) →
        assembleRev sh ch nbRev grid idx = src idx := by
  intro nbRev
  induction nbRev with
  | nil =>
    intro grid _ _ hgrid idx hlen hval
    have := hgrid [] idx rfl hlen (by simp) (by simp)
      (fun k _ hk => hval k hk)
    rw [assembleRev, this, mixIdx_nil]
  | cons m rest ih =>
    intro grid hr hnb hgrid idx hlen hval
    rw [assembleRev]
    refine ih _ (by simpa using Nat.le_of_succ_le hr) ?_ ?_ idx hlen hval
    · intro i hi
      have h2 := hnb (i + 1) (by simpa using Nat.succ_lt_succ hi)
      have h3 : rest.length - 1 - i = (m :: rest).length - 1 - (i + 1) := by
        simp only [List.length_cons]
        omega
      rw [h3]
      simpa using h2
    · intro j idx' hj hlen' hA hB hD
      set k0 := rest.length with hk0
      have hjk : j.length = k0 := hj
      have hk0N : k0 < sh.length := by
        have h5 := hr
        simp only [List.length_cons] at h5
        omega
      set c := ch.getD k0 0 with hcdef
      set a := sh.getD k0 0 with hadef
      have hc : 0 < c := hch k0 hk0N
      set x := idx'.getD k0 0 with hxdef
      have hx : x < a := hD k0 (by omega) hk0N
      set t := x / c with htdef
      set l := x % c with hldef
      have hdm := Nat.div_add_mod x c
      rw [← htdef, ← hldef] at hdm
      have hmul : c * t = t * c := Nat.mul_comm c t
      have htl : t * c + l = x := by omega
      have hm : m = nBlocksAt sh ch k0 := by
        have h0 := hnb 0 (by simp)
        have h4 : (m :: rest).length - 1 - 0 = k0 := by
          simp only [List.length_cons, Nat.sub_zero, Nat.add_sub_cancel, hk0]
        rw [h4] at h0
        simpa using h0
      have htm : t < m := by
        rw [hm]
        exact div_lt_ceilDivN x a c hc hx
      have hlc : l < c := Nat.mod_lt x hc
      have hblock : ((List.range m).map
            (fun u => (grid (j ++ [u]), blockExt sh ch k0 u)))
          = (List.range m).map
            (fun u => (grid (j ++ [u]), min ((u + 1) * c) a - u * c)) := by
        refine List.map_congr_left ?_
        intro u _
        simp only [blockExt, ← hcdef, ← hadef]
      rw [hblock, concatAxis_blocks k0 c hc t a (fun u => grid (j ++ [u])) m l idx'
        htm (by omega) (by omega) hlc]
      have hjlen : (j ++ [t]).length = (m :: rest).length := by
        simp only [List.length_append, List.length_cons, List.length_nil]
        omega
      have hidxlen : (idx'.set k0 l).length = sh.length := by
        simpa using hlen'
      have hk0idx : k0 < idx'.length := by omega
      have hA2 : ∀ k, k < (j ++ [t]).length →
          (j ++ [t]).getD k 0 < nBlocksAt sh ch k := by
        intro k hk
        simp only [List.length_append, List.length_cons, List.length_nil] at hk
        rcases Nat.lt_or_ge k j.length with hkj | hkj
        · rw [getD_append_left j [t] k hkj]
          exact hA k hkj
        · have hkeq : k = j.length := by omega
          subst hkeq
          rw [getD_append_len, hjk, ← hm]
          exact htm
      have hB2 : ∀ k, k < (j ++ [t]).length →
          (idx'.set k0 l).getD k 0 < blockExt sh ch k ((j ++ [t]).getD k 0) := by
        intro k hk
        simp only [List.length_append, List.length_cons, List.length_nil] at hk
        rcases Nat.lt_or_ge k j.length with hkj | hkj
        · rw [getD_set_ne idx' k0 k l (by omega), getD_append_left j [t] k hkj]
          exact hB k hkj
        · have hkeq : k = j.length := by omega
          subst hkeq
          rw [getD_append_len, hjk, getD_set_self idx' k0 l hk0idx]
          simp only [blockExt, ← hcdef, ← hadef]
          have hsm : (t + 1) * c = t * c + c := Nat.succ_mul t c
          omega
      have hD2 : ∀ k, (j ++ [t]).length ≤ k → k < sh.length →
          (idx'.set k0 l).getD k 0 < sh.getD k 0 := by
        intro k hk1 hk2
        simp only [List.length_append, List.length_cons, List.length_nil] at hk1
        rw [getD_set_ne idx' k0 k l (by omega)]
        exact hD k (by omega) hk2
      rw [hgrid (j ++ [t]) (idx'.set k0 l) hjlen hidxlen hA2 hB2 hD2]
      refine congrArg src ?_
      rw [← hjk]
      refine mixIdx_append ch j idx' t l ?_ ?_ ?_
      · omega
      · omega
      · rw [hjk, ← hcdef, ← hxdef]
        exact htl

/-- C1.  Block round-trip: for every source array and every chunk_shape of the
same rank with positive components each no larger than the corresponding shape
component, building the lazy block grid over the dataset's shape
(num_blocks/split_blocks) and reassembling it with the innermost-axis-first
concatenation of concat_dask, as dask_load_hdf5 does, yields an array equal
element-for-element to reading the whole dataset directly. -/
theorem block_roundtrip {α : Type} [Inhabited α] (sh ch : List Nat)
    (src : List Nat → α)
    (hlen : ch.length = sh.length)
    (hpos : ∀ k, k < sh.length → 0 < ch.getD k 0)
    (hle : ∀ k, k < sh.length → ch.getD k 0 ≤ sh.getD k 0)
    (idx : List Nat) (hidx : idx.length = sh.length)
    (hval : ∀ k, k < sh.length → idx.getD k 0 < sh.getD k 0) :
    dask_load_hdf5 sh ch src idx = src idx := by
  unfold dask_load_hdf5 concat_dask
  refine assembleRev_correct sh ch src hlen hpos _ _ ?_ ?_ ?_ idx hidx hval
  · simp [numBlocksList]
  · intro i hi
    simp only [List.get_eq_getElem, List.getElem_reverse, numBlocksList,
      List.getElem_map, List.getElem_range, List.length_reverse,
      List.length_map, List.length_range]
  · intro j idx' _ _ _ _ _
    rfl

/-- Concrete source array read callback used by the block round-trip witness. -/
def exSrc : List Nat → Nat := fun l => 10 * l.headD 0 + l.getD 1 0

/-- Witness for block_roundtrip: a 3 x 2 dataset loaded with 2 x 2 chunks. -/
theorem block_roundtrip_witness :
    dask_load_hdf5 [3, 2] [2, 2] exSrc [2, 1] = exSrc [2, 1] :=
  block_roundtrip [3, 2] [2, 2] exSrc (by decide) (by decide) (by decide)
    [2, 1] (by decide) (by decide)

/-- Comparison used to model numpy.argsort on an index list: position a
precedes position b when key[a] < key[b].  numpy leaves the relative order of
equal keys unspecified (default quicksort); the model resolves ties stably by
original position, one legal refinement of that behaviour. -/
def argsortRel (key : List Int) (a b : Nat) : Prop :=
  key.getD a 0 < key.getD b 0 ∨ (key.getD a 0 = key.getD b 0 ∧ a ≤ b)

instance (key : List Int) : DecidableRel (argsortRel key) := fun _ _ => by
  unfold argsortRel
  exact inferInstance

instance (key : List Int) : IsTotal Nat (argsortRel key) where
  total a b := by
    unfold argsortRel
    omega

instance (key : List Int) : IsTrans Nat (argsortRel key) where
  trans a b c hab hbc := by
    unfold argsortRel at *
    omega

/-- each_key_sort = numpy.argsort(each_key): a permutation of 0..n-1 that
sorts the key list (the library sort is modelled as insertion sort over
argsortRel). -/
def argsort (key : List Int) : List Nat :=
  List.insertionSort (argsortRel key) (List.range key.length)

/-- Comparison by the "sort" field, used when the structured pair array
each_key_rsort is sorted with order="sort"; the second component breaks ties,
but the sort-field values are pairwise distinct in every use here. -/
def pairRel (p q : Nat × Nat) : Prop :=
  p.1 < q.1 ∨ (p.1 = q.1 ∧ p.2 ≤ q.2)

instance : DecidableRel pairRel := fun _ _ => by
  unfold pairRel
  exact inferInstance

instance : IsTotal (Nat × Nat) pairRel where
  total p q := by
    unfold pairRel
    omega

instance : IsTrans (Nat × Nat) pairRel where
  trans p q r hpq hqr := by
    unfold pairRel at *
    omega

/-- The structured array of pairs (each_key_sort[i], i), sorted by the "sort"
field, as built from numpy.concatenate([...]).T and .sort(order="sort"). -/
def sortPairs (sig : List Nat) : List (Nat × Nat) :=
  List.insertionSort pairRel
    ((List.range sig.length).map (fun u => (sig.getD u 0, u)))

/-- The sorted index list each_key[each_key_sort] handed to the backend. -/
def sortedIndexList (key : List Int) : List Int :=
  (argsort key).map (fun j => key.getD j 0)

/-- each_key_rsort: the "rsort" column after the structured sort, i.e. the
inverse permutation of argsort. -/
def inversePerm (key : List Int) : List Nat :=
  (sortPairs (argsort key)).map Prod.snd

/-- The hdf5 fallback resolution dataset[key_sort][key_rsort] along the fancy
axis: read the rows at the sorted index list from the backend (data gives the
backend row at each index), then re-permute the returned rows by the inverse
permutation. -/
def resolveFancy {α : Type} [Inhabited α] (data : Int → α) (key : List Int) :
    Nat → α :=
  fun i => data ((sortedIndexList key).getD ((inversePerm key).getD i 0) 0)

lemma getD_range : ∀ (n i : Nat), i < n → (List.range n).getD i 0 = i := by
  intro n
  induction n with
  | zero => intro i h; omega
  | succ n ih =>
    intro i h
    rw [List.range_succ]
    rcases Nat.lt_or_ge i n with h1 | h1
    · rw [getD_append_left _ _ i (by simpa using h1)]
      exact ih i h1
    · have h3 : i = n := by omega
      subst h3
      have h2 := getD_append_len (List.range i) i
      rw [List.length_range] at h2
      exact h2

lemma getD_map_fst : ∀ (l : List (Nat × Nat)) (i : Nat), i < l.length →
    (l.map Prod.fst).getD i 0 = (l.getD i (0, 0)).1
  | [], _, h => absurd h (by simp)
  | _ :: _, 0, _ => rfl
  | _ :: l, i + 1, h => getD_map_fst l i (by simpa using h)

lemma getD_map_snd : ∀ (l : List (Nat × Nat)) (i : Nat), i < l.length →
    (l.map Prod.snd).getD i 0 = (l.getD i (0, 0)).2
  | [], _, h => absurd h (by simp)
  | _ :: _, 0, _ => rfl
  | _ :: l, i + 1, h => getD_map_snd l i (by simpa using h)

lemma getD_mem_pairs : ∀ (l : List (Nat × Nat)) (i : Nat), i < l.length →
    l.getD i (0, 0) ∈ l
  | [], _, h => absurd h (by simp)
  | p :: l, 0, _ => List.mem_cons_self p l
  | p :: l, i + 1, h =>
    List.mem_cons_of_mem p (getD_mem_pairs l i (by simpa using h))

lemma getD_map_key : ∀ (sg : List Nat) (key : List Int) (i : Nat),
    i < sg.length →
    (sg.map (fun j => key.getD j 0)).getD i 0 = key.getD (sg.getD i 0) 0
  | [], _, _, h => absurd h (by simp)
  | _ :: _, _, 0, _ => rfl
  | _ :: sg, key, i + 1, h => getD_map_key sg key i (by simpa using h)

lemma map_getD_range : ∀ (xs : List Nat),
    (List.range xs.length).map (fun i => xs.getD i 0) = xs
  | [] => rfl
  | x :: xs => by
    rw [List.length_cons, List.range_succ_eq_map, List.map_cons]
    refine congrArg (x :: ·) ?_
    rw [List.map_map]
    have h : ((fun i => (x :: xs).getD i 0) ∘ Nat.succ) = fun i => xs.getD i 0 := by
      funext i
      rfl
    rw [h]
    exact map_getD_range xs

/-- C2.  Index reordering correctness: for every index list along one axis,
possibly out of order and with repeats, the reorderer's computed pair
(sorted_index_list, inverse_permutation) satisfies
sorted_index_list[inverse_permutation[i]] = index_list[i] for all i, so that
requesting the backend at the sorted list and re-permuting the returned rows
by the inverse permutation gives, at every output position i, the backend row
at original index index_list[i]. -/
theorem index_reorder_correct {α : Type} [Inhabited α] (data : Int → α)
    (key : List Int) (i : Nat) (hi : i < key.length) :
    (sortedIndexList key).getD ((inversePerm key).getD i 0) 0 = key.getD i 0 ∧
    resolveFancy data key i = data (key.getD i 0) := by
  have hperm : List.Perm (argsort key) (List.range key.length) :=
    List.perm_insertionSort _ _
  have hlen : (argsort key).length = key.length := by
    simpa using hperm.length_eq
  have hQP : List.Perm (sortPairs (argsort key))
      ((List.range (argsort key).length).map
        (fun u => ((argsort key).getD u 0, u))) :=
    List.perm_insertionSort _ _
  have hQsorted : List.Sorted pairRel (sortPairs (argsort key)) :=
    List.sorted_insertionSort _ _
  have hPfst : ((List.range (argsort key).length).map
        (fun u => ((argsort key).getD u 0, u))).map Prod.fst = argsort key := by
    rw [List.map_map]
    exact map_getD_range (argsort key)
  have hQfst_perm : List.Perm ((sortPairs (argsort key)).map Prod.fst)
      (List.range key.length) := by
    refine ((hQP.map Prod.fst).trans ?_)
    rw [hPfst]
    exact hperm
  have hQfst_sorted :
      List.Sorted (· ≤ ·) ((sortPairs (argsort key)).map Prod.fst) := by
    refine List.Pairwise.map Prod.fst ?_ hQsorted
    intro p q h
    unfold pairRel at h
    omega
  have hQfst : (sortPairs (argsort key)).map Prod.fst =
      List.range key.length :=
    List.eq_of_perm_of_sorted hQfst_perm hQfst_sorted
      (List.sorted_le_range key.length)
  have hQlen : (sortPairs (argsort key)).length = key.length := by
    have h := congrArg List.length hQfst
    simpa using h
  have hiQ : i < (sortPairs (argsort key)).length := by omega
  have hfst_i : ((sortPairs (argsort key)).getD i (0, 0)).1 = i := by
    rw [← getD_map_fst _ i hiQ, hQfst]
    exact getD_range key.length i hi
  have hmemQ : (sortPairs (argsort key)).getD i (0, 0) ∈
      sortPairs (argsort key) := getD_mem_pairs _ i hiQ
  have hmemP : (sortPairs (argsort key)).getD i (0, 0) ∈
      (List.range (argsort key).length).map
        (fun u => ((argsort key).getD u 0, u)) := hQP.mem_iff.mp hmemQ
  obtain ⟨u, hu, hueq⟩ := List.mem_map.mp hmemP
  have hun : u < key.length := by
    have := List.mem_range.mp hu
    omega
  have hsnd : ((sortPairs (argsort key)).getD i (0, 0)).2 = u := by
    rw [← hueq]
  have hsig_u : (argsort key).getD u 0 = i := by
    have h5 : ((sortPairs (argsort key)).getD i (0, 0)).1
        = (argsort key).getD u 0 := by
      rw [← hueq]
    omega
  have hinv : (inversePerm key).getD i 0 = u := by
    unfold inversePerm
    rw [getD_map_snd _ i hiQ]
    exact hsnd
  have hsorted_getD : (sortedIndexList key).getD ((inversePerm key).getD i 0) 0
      = key.getD i 0 := by
    unfold sortedIndexList
    rw [hinv, getD_map_key _ key u (by omega), hsig_u]
  exact ⟨hsorted_getD, congrArg data hsorted_getD⟩

/-- Witness for index_reorder_correct on the list [3, 1, 3, 0] at position 2. -/
theorem index_reorder_correct_witness :
    (sortedIndexList [3, 1, 3, 0]).getD
        ((inversePerm [3, 1, 3, 0]).getD 2 0) 0
      = ([3, 1, 3, 0] : List Int).getD 2 0 ∧
    resolveFancy (fun z : Int => z) [3, 1, 3, 0] 2
      = ([3, 1, 3, 0] : List Int).getD 2 0 :=
  index_reorder_correct (fun z : Int => z) [3, 1, 3, 0] 2 (by decide)

/-- Per-axis index specification of a Selection key after
kenjutsu.format.reformat_slices: an explicit range slice, a single integer, or
an integer sequence (the fancy/unordered case). -/
inductive ASpec where
  | sl (start stop : Nat)
  | idx (i : Nat)
  | seq (l : List Nat)
deriving DecidableEq

/-- Whether an axis spec is an integer sequence (collections.Sequence test). -/
def isSeqB : ASpec → Bool
  | .seq _ => true
  | _ => false

/-- num_seqs: how many axes of the key carry an integer sequence. -/
def countSeqs (key : List ASpec) : Nat := key.countP isSeqB

/-- Whether the first axis spec of the key is an integer sequence
(the isinstance(ref_key[0], collections.Sequence) test). -/
def isSeqHeadB : List ASpec → Bool
  | .seq _ :: _ => true
  | _ => false

/-- Backend index arithmetic for one native read dataset[key]: maps output
coordinates to source coordinates.  A slice keeps its axis with an offset, an
integer fixes the axis (dropping one output coordinate), and a sequence keeps
its axis, the output coordinate selecting the sequence entry (numpy basic
indexing plus a single in-place fancy axis). -/
def applySpecs : List ASpec → List Nat → List Nat
  | [], _ => []
  | .sl a _ :: rest, o :: os => (a + o) :: applySpecs rest os
  | .sl a _ :: rest, [] => a :: applySpecs rest []
  | .idx i :: rest, os => i :: applySpecs rest os
  | .seq l :: rest, o :: os => l.getD o 0 :: applySpecs rest os
  | .seq l :: rest, [] => l.getD 0 0 :: applySpecs rest []

/-- One native backend read dataset[key] of the zarr store, as an array over
the output coordinates. -/
def resolveKey {α : Type} (d : List Nat → α) (key : List ASpec)
    (out : List Nat) : α :=
  d (applySpecs key out)

/-- Errors raised by the zarr fallback path (the spec's
UnsupportedIndexPattern cases). -/
inductive IndexErr where
  | tooManySequences
  | sequenceNotFirst
deriving DecidableEq

/-- The except-TypeError fallback of
LazyZarrDataset.LazyZarrDatasetSelection.__getitem__: after reformat_slices,
count the integer sequences; more than one raises ValueError("Cannot take
more than one sequence of integers..."); exactly one requires it to be the
first axis, else ValueError("Sequence of integers must be first."); otherwise
split_indices expands the sequence into one single-index read per entry, each
wrapped in a singleton leading axis and concatenated along axis 0 in the
sequence's original (pre-sort) order. -/
def zarrFallbackGetitem {α : Type} [Inhabited α] (d : List Nat → α)
    (key : List ASpec) : Except IndexErr (List Nat → α) :=
  if 1 < countSeqs key then
    .error .tooManySequences
  else if countSeqs key = 1 then
    match key with
    | ASpec.seq l :: rest =>
      .ok (concatAxis 0 (l.map (fun i =>
        ((fun out => resolveKey d (ASpec.idx i :: rest) out.tail), 1))))
    | _ => .error .sequenceNotFirst
  else
    .ok (resolveKey d key)

/-- Trivial concrete backend used by witnesses and counterexamples. -/
def dZero : List Nat → Nat := fun _ => 0

/-- Whether an Except value is a success. -/
def isOkB {ε β : Type} : Except ε β → Bool
  | .ok _ => true
  | .error _ => false

lemma concatAxis_unit {α : Type} [Inhabited α] (g : Nat → List Nat → α) :
    ∀ (l : List Nat) (t : Nat) (os : List Nat), t < l.length →
      concatAxis 0 (l.map (fun i => (g i, 1))) (t :: os)
        = g (l.getD t 0) (0 :: os)
  | [], _, _, h => absurd h (by simp)
  | i :: l, 0, os, _ => by
    rw [List.map_cons, concatAxis, if_pos (by simp)]
    rfl
  | i :: l, t + 1, os, h => by
    have hip : ¬ (((t + 1) :: os).getD 0 0 < 1) := by simp
    rw [List.map_cons, concatAxis, if_neg hip]
    have hset : (((t + 1) :: os).set 0 (((t + 1) :: os).getD 0 0 - 1))
        = t :: os := by
      simp
    rw [hset]
    exact concatAxis_unit g l t os (by simpa using h)

/-- C3 counterexample: a Selection with exactly one unordered integer
sequence, placed on the second axis, which the zarr fallback rejects with the
UnsupportedIndexPattern error instead of succeeding. -/
theorem zarr_single_seq_can_fail :
    countSeqs [ASpec.sl 0 2, ASpec.seq [1, 0]] = 1 ∧
    zarrFallbackGetitem dZero [ASpec.sl 0 2, ASpec.seq [1, 0]]
      = Except.error IndexErr.sequenceNotFirst := by
  constructor
  · rfl
  · rfl

/-- C3 (amended).  In the zarr fallback, a Selection with unordered sequences
on two or more axes always fails with the UnsupportedIndexPattern error, and
one with exactly one such axis succeeds precisely when that axis is the
first.  (The hdf5 variant raises no such error itself: its fallback sorts
every sequence axis and defers the selection to the backend.) -/
theorem zarr_single_axis_rule {α : Type} [Inhabited α] (d : List Nat → α)
    (key : List ASpec) :
    (1 < countSeqs key →
      zarrFallbackGetitem d key = Except.error IndexErr.tooManySequences) ∧
    (countSeqs key = 1 →
      (isOkB (zarrFallbackGetitem d key) = true ↔ isSeqHeadB key = true)) := by
  constructor
  · intro h
    unfold zarrFallbackGetitem
    rw [if_pos h]
  · intro h1
    unfold zarrFallbackGetitem
    rw [if_neg (by omega), if_pos h1]
    cases key with
    | nil => simp [countSeqs] at h1
    | cons a rest =>
      cases a with
      | sl a b => simp [isOkB, isSeqHeadB]
      | idx i => simp [isOkB, isSeqHeadB]
      | seq l => simp [isOkB, isSeqHeadB]

/-- Witness for zarr_single_axis_rule: two sequence axes are rejected. -/
theorem zarr_single_axis_rule_witness :
    zarrFallbackGetitem dZero [ASpec.seq [0], ASpec.seq [1]]
      = Except.error IndexErr.tooManySequences :=
  (zarr_single_axis_rule dZero [ASpec.seq [0], ASpec.seq [1]]).1 (by decide)

/-- C9.  Directory-backed fallback position rule: a single unordered sequence
on a non-first axis (other axis specs present) fails with the
UnsupportedIndexPattern error; a sequence on the first axis makes the
fallback execute one single-index read per sequence entry and concatenate
them along that axis in the original (pre-sort) order, so row t of the result
is the backend read at sequence entry t. -/
theorem zarr_fallback_position_rule {α : Type} [Inhabited α]
    (d : List Nat → α) (key : List ASpec) (l : List Nat) (rest : List ASpec)
    (t : Nat) (os : List Nat) (hkey : countSeqs key = 1)
    (hhead : isSeqHeadB key = false) (hrest : countSeqs rest = 0)
    (ht : t < l.length) :
    zarrFallbackGetitem d key = Except.error IndexErr.sequenceNotFirst ∧
    ∃ r, zarrFallbackGetitem d (ASpec.seq l :: rest) = Except.ok r ∧
      r (t :: os) = resolveKey d (ASpec.idx (l.getD t 0) :: rest) os := by
  have hc : countSeqs (ASpec.seq l :: rest) = 1 := by
    unfold countSeqs at hrest ⊢
    rw [List.countP_cons]
    simp only [isSeqB, if_true]
    omega
  constructor
  · unfold zarrFallbackGetitem
    rw [if_neg (by omega), if_pos hkey]
    cases key with
    | nil => simp [countSeqs] at hkey
    | cons a r2 =>
      cases a with
      | sl a b => rfl
      | idx i => rfl
      | seq l2 => simp [isSeqHeadB] at hhead
  · refine ⟨concatAxis 0 (l.map (fun i =>
        ((fun out => resolveKey d (ASpec.idx i :: rest) out.tail), 1))), ?_, ?_⟩
    · unfold zarrFallbackGetitem
      rw [if_neg (by omega), if_pos hc]
    · exact concatAxis_unit
        (fun i out => resolveKey d (ASpec.idx i :: rest) out.tail) l t os ht

/-- Witness for zarr_fallback_position_rule on a 3 x 3 dataset with sequence
[2, 0]: the misplaced form fails and the leading form reads row 2 at t = 0. -/
theorem zarr_fallback_position_rule_witness :
    zarrFallbackGetitem dZero [ASpec.sl 0 3, ASpec.seq [2, 0]]
      = Except.error IndexErr.sequenceNotFirst ∧
    ∃ r, zarrFallbackGetitem dZero (ASpec.seq [2, 0] :: [ASpec.sl 0 3])
      = Except.ok r ∧
      r (1 :: [0]) = resolveKey dZero
        (ASpec.idx (([2, 0] : List Nat).getD 1 0) :: [ASpec.sl 0 3]) [0] :=
  zarr_fallback_position_rule dZero [ASpec.sl 0 3, ASpec.seq [2, 0]] [2, 0]
    [ASpec.sl 0 3] 1 [0] (by decide) (by decide) (by decide) (by decide)

/-- A filesystem path: absolute flag plus components, with os.path semantics
for joining absolute and relative paths. -/
structure PPath where
  absolute : Bool
  comps : List String
deriving DecidableEq

/-- os.path.join(a, b): if the second argument is an absolute path, all
previous components are thrown away and the result is the second argument
itself; otherwise the components are appended. -/
def joinPath (a b : PPath) : PPath :=
  if b.absolute then b else ⟨a.absolute, a.comps ++ b.comps⟩

/-- What a path can hold: a regular file with payload data, or a directory. -/
inductive FEntry where
  | fileE (data : Nat)
  | dirE
deriving DecidableEq

/-- Filesystem state for the overwrite model: a map from paths to optional
entries.  Subtree relocation under a renamed directory is elided; the claims
only inspect the renamed root path. -/
def FState : Type := PPath → Option FEntry

/-- os.rename(src, dst): dst takes src's entry and src becomes absent; a
rename of a path onto itself succeeds and changes nothing. -/
def osRename (src dst : PPath) (fs : FState) : FState :=
  if dst = src then fs
  else fun p => if p = dst then fs src else if p = src then none else fs p

/-- The synchronous part of dask_io_remove(name): after name has been made
absolute by os.path.abspath and tempfile.mkdtemp has produced the fresh
quarantine directory tmp, the existing name is renamed to
os.path.join(tmp, name); the removal task graph over tmp is then built and
submitted fire-and-forget, the call returning without waiting. -/
def dask_io_remove_sync (fs : FState) (name tmp : PPath) : FState :=
  if (fs name).isSome then osRename name (joinPath tmp name) fs else fs

/-- C4 failing-input state: the store key path /store/k holds file data 5. -/
def exFS : FState :=
  fun p => if p = ⟨true, ["store", "k"]⟩ then some (FEntry.fileE 5) else none

/-- C4 (code bug).  Because name is absolute (os.path.abspath), the computed
quarantine destination os.path.join(tmp_dir, name) is name itself, not a
fresh path inside tmp_dir: the rename in dask_io_remove is a self-rename, so
when delete/set submits the background removal the old data is still at the
original path, contradicting the overwrite-quarantine contract (and the
adjacent comment "Immediately makes room for new key-value pair"). -/
theorem quarantine_rename_is_noop :
    joinPath ⟨true, ["tmp", "q1"]⟩ ⟨true, ["store", "k"]⟩
      = ⟨true, ["store", "k"]⟩ ∧
    dask_io_remove_sync exFS ⟨true, ["store", "k"]⟩ ⟨true, ["tmp", "q1"]⟩
        ⟨true, ["store", "k"]⟩
      = some (FEntry.fileE 5) := by
  constructor
  · rfl
  · rfl

/-- A filesystem subtree for the deletion/archive models: a regular file or a
directory with an ordered list of children (the order scandir returns them). -/
inductive FSNode where
  | file (name : String)
  | dir (name : String) (children : List FSNode)

/-- A deletion task of the dask graph: dask_rm_file(path) has no
dependencies; dask_rm_dir(path, *deps) depends on the given tasks. -/
inductive DTask where
  | rmFile (path : String)
  | rmDir (path : String) (deps : List DTask)

mutual

/-- The removal task built for one directory entry inside
_int_dask_rm_tree: a leaf task for a file, and for a subdirectory a
dask_rm_dir task whose dependencies are the tasks of its own children. -/
def taskOf : FSNode → DTask
  | .file n => .rmFile n
  | .dir n cs => .rmDir n (taskOfList cs)

/-- The dependency list returned by _int_dask_rm_tree(dname): one removal
task per immediate child of the directory. -/
def taskOfList : List FSNode → List DTask
  | [] => []
  | c :: cs => taskOf c :: taskOfList cs

end

/-- dask_rm_tree(dirname): the root directory-removal task, depending on the
tasks of the root's immediate children. -/
def dask_rm_tree : FSNode → DTask
  | .dir n cs => .rmDir n (taskOfList cs)
  | .file n => .rmDir n []

/-- The direct dependency list of a task. -/
def taskDeps : DTask → List DTask
  | .rmFile _ => []
  | .rmDir _ ds => ds

mutual

/-- All proper descendants of a node, in traversal order. -/
def descendants : FSNode → List FSNode
  | .file _ => []
  | .dir _ cs => descList cs

/-- All nodes of a child list together with their descendants. -/
def descList : List FSNode → List FSNode
  | [] => []
  | c :: cs => c :: (descendants c ++ descList cs)

end

mutual

/-- The transitive dependency closure of a task. -/
def transDeps : DTask → List DTask
  | .rmFile _ => []
  | .rmDir _ ds => transList ds

/-- A task list together with the transitive dependencies of its members. -/
def transList : List DTask → List DTask
  | [] => []
  | t :: ts => t :: (transDeps t ++ transList ts)

end

mutual

theorem mem_trans_node : ∀ (node d : FSNode), d ∈ descendants node →
    taskOf d ∈ transDeps (taskOf node)
  | .file _, d, h => by simp [descendants] at h
  | .dir n cs, d, h => by
    rw [descendants] at h
    rw [taskOf, transDeps]
    exact mem_trans_list cs d h

theorem mem_trans_list : ∀ (cs : List FSNode) (d : FSNode), d ∈ descList cs →
    taskOf d ∈ transList (taskOfList cs)
  | [], d, h => by simp [descList] at h
  | c :: cs, d, h => by
    rw [descList] at h
    rw [taskOfList, transList]
    rcases List.mem_cons.mp h with h1 | h1
    · subst h1
      exact List.mem_cons_self _ _
    · rcases List.mem_append.mp h1 with h2 | h2
      · exact List.mem_cons_of_mem _
          (List.mem_append.mpr (Or.inl (mem_trans_node c d h2)))
      · exact List.mem_cons_of_mem _
          (List.mem_append.mpr (Or.inr (mem_trans_list cs d h2)))

end

/-- C5.  Deletion dependency graph shape: the task dask_rm_tree builds for a
directory has as its dependency list exactly the removal tasks of the
directory's immediate children (and likewise for every directory task inside
the graph), so transitively the task of every descendant of the directory is
in the root task's dependency closure and must complete before the directory
removal executes. -/
theorem rm_tree_dependency_graph (n : String) (cs : List FSNode) (d : FSNode)
    (hd : d ∈ descendants (FSNode.dir n cs)) :
    taskDeps (dask_rm_tree (FSNode.dir n cs)) = taskOfList cs ∧
    (∀ m ds, taskDeps (taskOf (FSNode.dir m ds)) = taskOfList ds) ∧
    taskOf d ∈ transDeps (dask_rm_tree (FSNode.dir n cs)) := by
  refine ⟨rfl, fun m ds => rfl, ?_⟩
  exact mem_trans_node (FSNode.dir n cs) d hd

/-- Witness for rm_tree_dependency_graph: the nested file b of the tree
r/{a, s/{b}} appears in the root task's transitive dependency closure. -/
theorem rm_tree_dependency_graph_witness :
    taskDeps (dask_rm_tree (FSNode.dir "r"
        [FSNode.file "a", FSNode.dir "s" [FSNode.file "b"]]))
      = taskOfList [FSNode.file "a", FSNode.dir "s" [FSNode.file "b"]] ∧
    (∀ m ds, taskDeps (taskOf (FSNode.dir m ds)) = taskOfList ds) ∧
    taskOf (FSNode.file "b") ∈ transDeps (dask_rm_tree (FSNode.dir "r"
        [FSNode.file "a", FSNode.dir "s" [FSNode.file "b"]])) :=
  rm_tree_dependency_graph "r" [FSNode.file "a", FSNode.dir "s" [FSNode.file "b"]]
    (FSNode.file "b") (by
      have h : descendants (FSNode.dir "r"
            [FSNode.file "a", FSNode.dir "s" [FSNode.file "b"]])
          = [FSNode.file "a", FSNode.dir "s" [FSNode.file "b"],
             FSNode.file "b"] := by
        simp [descendants, descList]
      rw [h]
      exact List.mem_cons_of_mem _
        (List.mem_cons_of_mem _ (List.mem_cons_self _ _)))

/-- The file names among a directory's children (the fnames list of one
scandir.walk step). -/
def fileNamesOf (cs : List FSNode) : List String :=
  cs.filterMap (fun c => match c with
    | .file s => some s
    | _ => none)

/-- Lexicographic code-point comparison of character lists, as Python
compares strings. -/
def charsLe : List Char → List Char → Bool
  | [], _ => true
  | _ :: _, [] => false
  | a :: as, b :: bs =>
    if a.toNat < b.toNat then true
    else if b.toNat < a.toNat then false
    else charsLe as bs

/-- Python's lexicographic string order (code-point order). -/
def strLeB (a b : String) : Bool := charsLe a.data b.data

/-- sorted(fnames): lexicographic string sort of the file names. -/
def sortStrings (l : List String) : List String :=
  List.insertionSort (fun a b => strLeB a b = true) l

mutual

/-- The relative member paths (as component lists) that zip_dir writes while
walking one directory: first this directory's own file names, sorted, then
each subdirectory's subtree, with subdirectories in the (unsorted) order the
filesystem returns them — scandir.walk is top-down and zip_dir sorts only
fnames, never dnames. -/
def zipWalk (pre : List String) : FSNode → List (List String)
  | .file _ => []
  | .dir _ cs =>
    (sortStrings (fileNamesOf cs)).map (fun f => pre ++ [f]) ++ zipWalkList pre cs

/-- The members contributed by the subdirectories of a child list. -/
def zipWalkList (pre : List String) : List FSNode → List (List String)
  | [] => []
  | .file _ :: cs => zipWalkList pre cs
  | .dir m ds :: cs => zipWalk (pre ++ [m]) (.dir m ds) ++ zipWalkList pre cs

end

/-- zip_dir member order: the relative path strings of the archive members in
the order they are written. -/
def zip_dir_members (root : FSNode) : List String :=
  (zipWalk [] root).map (String.intercalate "/")

mutual

/-- The relative path strings of every file under a node. -/
def allFilePaths (pre : List String) : FSNode → List String
  | .file s => [String.intercalate "/" (pre ++ [s])]
  | .dir _ cs => allFilePathsList pre cs

/-- The relative path strings of every file under a child list. -/
def allFilePathsList (pre : List String) : List FSNode → List String
  | [] => []
  | .file s :: cs => String.intercalate "/" (pre ++ [s]) :: allFilePathsList pre cs
  | .dir m ds :: cs =>
    allFilePaths (pre ++ [m]) (.dir m ds) ++ allFilePathsList pre cs

end

/-- The spec-side member order: the lexicographically sorted relative path of
every file under the tree. -/
def specSortedPaths (root : FSNode) : List String :=
  sortStrings (allFilePaths [] root)

/-- C8 counterexample: for the tree r/{z, a/{b}} the archive member order is
["z", "a/b"] (root files precede subdirectory files in the top-down walk),
while the lexicographically sorted relative paths are ["a/b", "z"]. -/
theorem zip_member_order_counterexample :
    zip_dir_members
        (FSNode.dir "r" [FSNode.file "z", FSNode.dir "a" [FSNode.file "b"]])
      ≠ specSortedPaths
        (FSNode.dir "r" [FSNode.file "z", FSNode.dir "a" [FSNode.file "b"]]) := by
  simp only [zip_dir_members, specSortedPaths, zipWalk, zipWalkList,
    allFilePaths, allFilePathsList]
  decide

lemma zipWalkList_files : ∀ (pre : List String) (fs : List String),
    zipWalkList pre (fs.map FSNode.file) = []
  | _, [] => rfl
  | pre, _ :: fs => zipWalkList_files pre fs

lemma fileNamesOf_map_file : ∀ (fs : List String),
    fileNamesOf (fs.map FSNode.file) = fs
  | [] => rfl
  | f :: fs => congrArg (f :: ·) (fileNamesOf_map_file fs)

lemma allFilePathsList_files : ∀ (fs : List String),
    allFilePathsList [] (fs.map FSNode.file) = fs
  | [] => rfl
  | f :: fs => congrArg (f :: ·) (allFilePathsList_files fs)

/-- C8 (amended).  zip_dir writes members in top-down walk order, sorting
only the file names within each directory (subdirectories keep the
filesystem's order and follow the directory's own files); the member order
equals the lexicographically sorted relative paths of all files exactly in
the subdirectory-free case, proved here. -/
theorem zip_dir_flat_sorted (n : String) (fs : List String) :
    zip_dir_members (FSNode.dir n (fs.map FSNode.file))
      = specSortedPaths (FSNode.dir n (fs.map FSNode.file)) := by
  unfold zip_dir_members specSortedPaths
  rw [zipWalk, allFilePaths, zipWalkList_files, fileNamesOf_map_file,
    allFilePathsList_files, List.append_nil, List.map_map]
  have h : (String.intercalate "/" ∘ fun f => ([] : List String) ++ [f])
      = id := by
    funext f
    rfl
  rw [h, List.map_id]

/-- The kind of entry an existing path holds in the removal model: a regular
file, a directory, or some other entry kind (socket, device, ...). -/
inductive NType where
  | fileT
  | dirT
  | otherT
deriving DecidableEq

/-- Filesystem state for the removal model: component-list paths mapped to
optional entry kinds. -/
def RState : Type := List String → Option NType

/-- Path prefix test: isUnder p q holds when p is a component-wise prefix of
q, i.e. q lies in the subtree rooted at p (used to model shutil.rmtree
removing a whole subtree). -/
def isUnder : List String → List String → Bool
  | [], _ => true
  | _ :: _, [] => false
  | a :: as, b :: bs => a == b && isUnder as bs

/-- Errors of the removal model: the ValueError for an unremovable entry
kind, and the re-raised OSError cases whose errno is not ENOENT. -/
inductive RErr where
  | invalidPath
  | notAFile
  | notADir
deriving DecidableEq

/-- io_remove(name): a missing path is ignored; a file is removed with
os.remove; a directory with shutil.rmtree (removing its whole subtree); any
other entry kind raises ValueError. -/
def io_remove (fs : RState) (p : List String) : Except RErr RState :=
  match fs p with
  | none => .ok fs
  | some .fileT => .ok (fun q => if q = p then none else fs q)
  | some .dirT => .ok (fun q => if isUnder p q then none else fs q)
  | some .otherT => .error .invalidPath

/-- The body of the delayed task dask_rm_file(fname): os.remove, with an
ENOENT failure (the file is already absent) swallowed and treated as
success; any other failure re-raised. -/
def dask_rm_file (fs : RState) (p : List String) : Except RErr RState :=
  match fs p with
  | some .fileT => .ok (fun q => if q = p then none else fs q)
  | none => .ok fs
  | some _ => .error .notAFile

/-- The body of the delayed task dask_rm_dir(dname, *deps): shutil.rmtree,
with an ENOENT failure (the tree is already absent) swallowed and treated as
success; any other failure re-raised. -/
def dask_rm_dir (fs : RState) (p : List String) : Except RErr RState :=
  match fs p with
  | some .dirT => .ok (fun q => if isUnder p q then none else fs q)
  | none => .ok fs
  | some _ => .error .notADir

lemma isUnder_self : ∀ (p : List String), isUnder p p = true
  | [] => rfl
  | a :: as => by
    rw [isUnder]
    simp [isUnder_self as]

/-- C6.  Deletion idempotence: whenever the deletion entry point io_remove
succeeds, invoking it again on the same path succeeds with no error and no
further change; and the removal task bodies treat an already-absent path as
success rather than an error. -/
theorem io_remove_idempotent (fs : RState) (p : List String) (fsp : RState)
    (h : io_remove fs p = Except.ok fsp) :
    io_remove fsp p = Except.ok fsp ∧
    (∀ (g : RState) (q : List String), g q = none →
      dask_rm_file g q = Except.ok g ∧ dask_rm_dir g q = Except.ok g) := by
  constructor
  · have habs : fsp p = none := by
      unfold io_remove at h
      cases hfp : fs p with
      | none =>
        rw [hfp] at h
        injection h with h2
        rw [← h2, hfp]
      | some t =>
        rw [hfp] at h
        cases t with
        | fileT =>
          injection h with h2
          rw [← h2]
          exact if_pos rfl
        | dirT =>
          injection h with h2
          rw [← h2]
          simp [isUnder_self]
        | otherT => cases h
    unfold io_remove
    rw [habs]
  · intro g q hg
    constructor
    · unfold dask_rm_file
      rw [hg]
    · unfold dask_rm_dir
      rw [hg]

/-- A one-file filesystem used by the idempotence witness. -/
def exRS : RState := fun q => if q = ["x"] then some NType.fileT else none

/-- The state after the first successful io_remove of the witness. -/
def exRS1 : RState := fun q => if q = ["x"] then none else exRS q

/-- Witness for io_remove_idempotent: removing the file x twice. -/
theorem io_remove_idempotent_witness :
    io_remove exRS1 ["x"] = Except.ok exRS1 ∧
    (∀ (g : RState) (q : List String), g q = none →
      dask_rm_file g q = Except.ok g ∧ dask_rm_dir g q = Except.ok g) :=
  io_remove_idempotent exRS ["x"] exRS1 rfl

/-- The store proxy's error for deleting a missing key (KeyError, the spec's
InvalidKey). -/
inductive KErr where
  | invalidKey
deriving DecidableEq

/-- DistributedDirectoryStore.__delitem__(key): if the key's backing path
under the store root exists, dask_io_remove(path) is submitted
fire-and-forget and the call returns (no synchronous change to the store
subtree); otherwise KeyError(key) is raised. -/
def dds_delitem (fs : RState) (store : List String) (key : String) :
    Except KErr RState :=
  if (fs (store ++ [key])).isSome then .ok fs else .error .invalidKey

/-- DistributedDirectoryStore.__setitem__(key, value): del self[key] with a
KeyError swallowed, then zarr.DirectoryStore.__setitem__ writes the value's
backing file at the key's path. -/
def dds_setitem (fs : RState) (store : List String) (key : String) : RState :=
  let fs2 := match dds_delitem fs store key with
    | .ok f => f
    | .error _ => fs
  fun q => if q = store ++ [key] then some NType.fileT else fs2 q

/-- C7.  Deleting an absent key fails with the InvalidKey error (KeyError),
while setting an absent key succeeds: the missing-key condition is swallowed
and the new write proceeds, leaving the key's backing file present. -/
theorem dds_absent_key (fs : RState) (store : List String) (key : String)
    (h : fs (store ++ [key]) = none) :
    dds_delitem fs store key = Except.error KErr.invalidKey ∧
    dds_setitem fs store key (store ++ [key]) = some NType.fileT := by
  constructor
  · unfold dds_delitem
    rw [h]
    rfl
  · unfold dds_setitem
    simp

/-- Witness for dds_absent_key: the empty store with key k. -/
theorem dds_absent_key_witness :
    dds_delitem (fun _ => none) ["s"] "k" = Except.error KErr.invalidKey ∧
    dds_setitem (fun _ => none) ["s"] "k" (["s"] ++ ["k"])
      = some NType.fileT :=
  dds_absent_key (fun _ => none) ["s"] "k" rfl

/-- Metadata the dataset constructors read from the backing store: the shape
and dtype recorded for filename/datasetname. -/
structure DSMeta where
  mshape : List Nat
  mdtype : String

/-- A lazy dataset handle: filename, datasetname, and the shape, dtype and
size captured at construction time. -/
structure LazyDS where
  filename : String
  datasetname : String
  dshape : List Nat
  ddtype : String
  dsize : Nat

/-- LazyHDF5Dataset(filename, datasetname): opens the file, captures the
dataset's shape and dtype, and sets size to the product of the shape. -/
def mkLazyHDF5 (env : String → String → DSMeta) (fn dn : String) : LazyDS :=
  { filename := fn, datasetname := dn, dshape := (env fn dn).mshape,
    ddtype := (env fn dn).mdtype, dsize := ((env fn dn).mshape).prod }

/-- LazyHDF5Dataset.astype(dtype): builds a fresh handle for the same file
and dataset and overrides only that fresh handle's dtype. -/
def astypeHDF5 (env : String → String → DSMeta) (ds : LazyDS) (t : String) :
    LazyDS :=
  { mkLazyHDF5 env ds.filename ds.datasetname with ddtype := t }

/-- The scoped context manager LazyHDF5Dataset.astype: the yielded view
paired with the state of the original handle when the scope exits (the
generator never assigns to self). -/
def astypeScopeHDF5 (env : String → String → DSMeta) (ds : LazyDS)
    (t : String) : LazyDS × LazyDS :=
  (astypeHDF5 env ds t, ds)

/-- LazyZarrDataset(filename, datasetname): opens the store, captures the
dataset's shape and dtype, and sets size to the product of the shape. -/
def mkLazyZarr (env : String → String → DSMeta) (fn dn : String) : LazyDS :=
  { filename := fn, datasetname := dn, dshape := (env fn dn).mshape,
    ddtype := (env fn dn).mdtype, dsize := ((env fn dn).mshape).prod }

/-- LazyZarrDataset.astype(dtype): builds a fresh handle for the same store
and dataset and overrides only that fresh handle's dtype. -/
def astypeZarr (env : String → String → DSMeta) (ds : LazyDS) (t : String) :
    LazyDS :=
  { mkLazyZarr env ds.filename ds.datasetname with ddtype := t }

/-- The scoped context manager LazyZarrDataset.astype. -/
def astypeScopeZarr (env : String → String → DSMeta) (ds : LazyDS)
    (t : String) : LazyDS × LazyDS :=
  (astypeZarr env ds t, ds)

/-- C10.  Scoped type-cast views: for both backend variants and every target
dtype, the yielded view is a fresh handle whose dtype is the target dtype
and whose filename and datasetname equal the original's, and the original
handle (dtype, shape, filename, datasetname, size) is unchanged when the
scope is entered and exited. -/
theorem astype_scoped_view (envH envZ : String → String → DSMeta)
    (dsH dsZ : LazyDS) (t : String) :
    (astypeScopeHDF5 envH dsH t).1.ddtype = t ∧
    (astypeScopeHDF5 envH dsH t).1.filename = dsH.filename ∧
    (astypeScopeHDF5 envH dsH t).1.datasetname = dsH.datasetname ∧
    (astypeScopeHDF5 envH dsH t).2 = dsH ∧
    (astypeScopeZarr envZ dsZ t).1.ddtype = t ∧
    (astypeScopeZarr envZ dsZ t).1.filename = dsZ.filename ∧
    (astypeScopeZarr envZ dsZ t).1.datasetname = dsZ.datasetname ∧
    (astypeScopeZarr envZ dsZ t).2 = dsZ :=
  ⟨rfl, rfl, rfl, rfl, rfl, rfl, rfl, rfl⟩

end NansheData
